import Mathlib

/-!
Verification development for the circuit evaluation engine of a visual
logic-gate simulator.  The engine consists of three pure functions over a
node list, a connection list and a module-definition table:

* `evaluateCircuit` — Kahn topological scheduling plus per-node output
  computation, recursing into module definitions (the recursion depth is
  made explicit here as a `fuel` parameter: the source recurses on the
  call stack with no guard, so `none` models a recursion that would not
  return within the given nesting depth);
* `detectCycleConnections` — Kahn peeling, reporting the connections whose
  two endpoints were never removed;
* `wouldCreateCycle` — breadth-first reachability check for a candidate
  edge.

All definitions below are transcribed from the source; JavaScript records
are modelled as association lists with first-key lookup and in-place
first-key update, JavaScript `Set`s as duplicate-free insertion-ordered
lists, and `undefined`-defaulting reads as `Option.getD` with the
corresponding default.
-/

inductive GateType where
  | AND
  | OR
  | NOT
  | INPUT
  | OUTPUT
  | LED
  | MODULE
  | PINBAR
  | PINSLOT
deriving DecidableEq

structure CircuitNode where
  id : String
  type : GateType
  inputCount : Nat
  outputCount : Nat
  inputValue : Option Bool := none
  pinBarMode : Option String := none
  pinBarValues : Option (List Bool) := none
  moduleId : Option String := none
deriving DecidableEq

structure Connection where
  id : String
  fromNodeId : String
  fromPinIndex : Nat
  toNodeId : String
  toPinIndex : Nat
deriving DecidableEq

structure ModuleDefinition where
  id : String
  name : String
  nodes : List CircuitNode
  connections : List Connection
  inputNodeIds : List String
  outputNodeIds : List String
  inputCount : Nat
  outputCount : Nat
deriving DecidableEq

/-- Association-list read: value of the first entry with the given key,
mirroring a JavaScript record read (`m[k]`, `undefined` as `none`). -/
def getKV {α : Type} : List (String × α) → String → Option α
  | [], _ => none
  | (k', v) :: rest, k => if k' = k then some v else getKV rest k

/-- Association-list write: overwrite the first entry with the given key or
append a fresh entry, mirroring a JavaScript record assignment. -/
def setKV {α : Type} : List (String × α) → String → α → List (String × α)
  | [], k, v => [(k, v)]
  | (k', v') :: rest, k, v =>
      if k' = k then (k, v) :: rest else (k', v') :: setKV rest k v

/-- Decrement the first entry with the given key (`m[k]--`); a missing key
is left untouched (the source never decrements a missing key). -/
def decKey : List (String × Int) → String → List (String × Int)
  | [], _ => []
  | (k', v) :: rest, k =>
      if k' = k then (k', v - 1) :: rest else (k', v) :: decKey rest k

/-- Increment the first entry with the given key (`m[k]++`). -/
def incKey : List (String × Int) → String → List (String × Int)
  | [], _ => []
  | (k', v) :: rest, k =>
      if k' = k then (k', v + 1) :: rest else (k', v) :: incKey rest k

/-- Number of entries holding a positive value; the potential used to bound
the number of iterations of the Kahn loop. -/
def countPos (deg : List (String × Int)) : Nat :=
  (deg.filter fun p => decide (0 < p.2)).length

/-- Insertion into a JavaScript `Set` rendered as a duplicate-free list in
insertion order. -/
def addIfAbsent (l : List String) (x : String) : List String :=
  if x ∈ l then l else l ++ [x]

/-- One pass of `for (const next of successors) { deg[next]--; if (deg[next]
=== 0) queue.push(next); }`: returns the updated degrees and the newly
zeroed keys in push order. -/
def decAll : List (String × Int) → List String → List (String × Int) × List String
  | deg, [] => (deg, [])
  | deg, s :: ss =>
      let deg1 := decKey deg s
      let res := decAll deg1 ss
      if getKV deg1 s = some 0 then (res.1, s :: res.2) else (res.1, res.2)

/-- The shared Kahn worklist loop of the evaluator and the cycle detector:
pop an id, record it, decrement its successors' in-degrees and enqueue the
ones that reach zero.  `fuel` bounds the number of iterations; the second
component is the queue left unprocessed when fuel runs out (always empty
for the canonical fuel, see `kahnLoop_drains`). -/
def kahnLoop (outE : List (String × List String)) :
    Nat → List String → List (String × Int) → List String × List String
  | 0, queue, _ => ([], queue)
  | _ + 1, [], _ => ([], [])
  | fuel + 1, id :: rest, deg =>
      let succs := (getKV outE id).getD []
      let step := decAll deg succs
      let res := kahnLoop outE fuel (rest ++ step.2) step.1
      (id :: res.1, res.2)

/-- One connection's contribution to the evaluator's adjacency: skipped
unless both endpoints are keys (existing nodes), otherwise the destination
is added to the source's successor set and the source to the destination's
predecessor set. -/
def adjStep (p : List (String × List String) × List (String × List String))
    (c : Connection) :
    List (String × List String) × List (String × List String) :=
  if (getKV p.1 c.fromNodeId).isSome && (getKV p.2 c.toNodeId).isSome then
    (setKV p.1 c.fromNodeId (addIfAbsent ((getKV p.1 c.fromNodeId).getD []) c.toNodeId),
     setKV p.2 c.toNodeId (addIfAbsent ((getKV p.2 c.toNodeId).getD []) c.fromNodeId))
  else p

/-- Forward/backward adjacency of the evaluator, restricted to connections
whose two endpoints both exist in the node list. -/
def buildAdj (nodes : List CircuitNode) (conns : List Connection) :
    List (String × List String) × List (String × List String) :=
  let init : List (String × List String) :=
    nodes.foldl (fun m n => setKV m n.id []) []
  conns.foldl adjStep (init, init)

/-- In-degree table of the evaluator: number of distinct existing
predecessors of each node. -/
def evalDeg (nodes : List CircuitNode) (inE : List (String × List String)) :
    List (String × Int) :=
  nodes.foldl (fun m n => setKV m n.id (((getKV inE n.id).getD []).length : Int)) []

/-- Order in which the evaluator visits nodes: the ids popped by Kahn's
algorithm (nodes that never reach in-degree zero are never visited). -/
def kahnOrder (nodes : List CircuitNode) (conns : List Connection) : List String :=
  let adj := buildAdj nodes conns
  let deg := evalDeg nodes adj.2
  let q0 := (nodes.filter fun n => decide (getKV deg n.id = some 0)).map (·.id)
  (kahnLoop adj.1 (q0.length + countPos deg) q0 deg).1

/-- Output mapping: node id, ordered boolean output vector. -/
abbrev Outputs := List (String × List Bool)

/-- Read of an entry of the output mapping
(`outputs[id]`, missing entry as `none`). -/
def lookupOut (st : Outputs) (id : String) : Option (List Bool) :=
  getKV st id

/-- Pin read `(outputs[id] || [])[idx] ?? false`. -/
def getVal (st : Outputs) (id : String) (idx : Nat) : Bool :=
  ((lookupOut st id).getD []).getD idx false

/-- Input gathering of the evaluator: for each pin index below the node's
declared input count, the first connection terminating at that pin supplies
the source node's output at the source pin index, defaulting to `false`
when the connection or the value is absent. -/
def gatherInputs (st : Outputs) (conns : List Connection) (nid : String)
    (count : Nat) : List Bool :=
  (List.range count).map fun i =>
    match conns.find? (fun c => decide (c.toNodeId = nid) && decide (c.toPinIndex = i)) with
    | some c => getVal st c.fromNodeId c.fromPinIndex
    | none => false

/-- Clone of a module definition's internal node list made by the MODULE
case of the evaluator: each INPUT node found in the designated
external-input id list (at an index within the instance's input vector) has
its held value overridden by the corresponding positional input. -/
def moduleInternal (md : ModuleDefinition) (iv : List Bool) : List CircuitNode :=
  md.nodes.map fun n =>
    if n.type = GateType.INPUT then
      match md.inputNodeIds.findIdx? (fun x => decide (x = n.id)) with
      | some idx =>
          if idx < iv.length then
            { n with inputValue := some (iv.getD idx false) }
          else n
      | none => n
    else n

/-- The `switch (node.type)` of the evaluator: the node's output vector
from its gathered input vector.  `recurse` is the recursive evaluation used
by the `MODULE` case; `none` propagates an out-of-fuel recursion. -/
def evalGate (recurse : List CircuitNode → List Connection → Option Outputs)
    (modules : List ModuleDefinition) (node : CircuitNode) (iv : List Bool) :
    Option (List Bool) :=
  match node.type with
  | GateType.INPUT => some [node.inputValue.getD false]
  | GateType.AND =>
      some [decide (2 ≤ iv.length) && iv.getD 0 false && iv.getD 1 false]
  | GateType.OR =>
      some [decide (2 ≤ iv.length) && (iv.getD 0 false || iv.getD 1 false)]
  | GateType.NOT => some [!iv.getD 0 false]
  | GateType.OUTPUT => some [iv.getD 0 false]
  | GateType.LED => some [iv.getD 0 false]
  | GateType.PINBAR =>
      if node.pinBarMode.getD "input" = "input" then
        some ((List.range node.outputCount).map fun i =>
          (node.pinBarValues.getD []).getD i false)
      else
        some (iv.take node.inputCount)
  | GateType.MODULE =>
      match modules.find? (fun m => decide (some m.id = node.moduleId)) with
      | some md =>
          (recurse (moduleInternal md iv) md.connections).map fun res =>
            md.outputNodeIds.map fun oid => getVal res oid 0
      | none => some (List.replicate node.outputCount false)
  | GateType.PINSLOT => some [false]

/-- `outputs[nodeId] = v` on the output mapping. -/
def setk (st : Outputs) (k : String) (v : List Bool) : Outputs :=
  setKV st k v

/-- One iteration of the evaluation loop: look the popped id up in the node
list (a failed lookup is skipped), gather inputs, compute the output vector
and store it under the id. -/
def evalNodeAux (recurse : List CircuitNode → List Connection → Option Outputs)
    (modules : List ModuleDefinition) (conns : List Connection)
    (nodes : List CircuitNode) (st : Outputs) (nid : String) : Option Outputs :=
  match nodes.find? (fun n => decide (n.id = nid)) with
  | none => some st
  | some node =>
      (evalGate recurse modules node (gatherInputs st conns nid node.inputCount)).map
        fun ov => setk st nid ov

/-- Folding the evaluation step over the visit order. -/
def evalLoop (recurse : List CircuitNode → List Connection → Option Outputs)
    (modules : List ModuleDefinition) (nodes : List CircuitNode)
    (conns : List Connection) : List String → Outputs → Option Outputs
  | [], st => some st
  | nid :: rest, st =>
      match evalNodeAux recurse modules conns nodes st nid with
      | none => none
      | some st' => evalLoop recurse modules nodes conns rest st'

/-- The evaluator.  `fuel` bounds the module-recursion depth (the source
recurses unboundedly on the call stack); a `none` result means the source
would still be recursing at that depth.  A circuit whose evaluation never
enters a module succeeds for every fuel, including zero. -/
def evaluateCircuit : Nat → List CircuitNode → List Connection →
    List ModuleDefinition → Option Outputs
  | 0, nodes, conns, modules =>
      evalLoop (fun _ _ => none) modules nodes conns (kahnOrder nodes conns) []
  | fuel + 1, nodes, conns, modules =>
      evalLoop (fun ns cs => evaluateCircuit fuel ns cs modules) modules nodes
        conns (kahnOrder nodes conns) []

/-- The recursion argument `evaluateCircuit` passes to its loop at a given
fuel. -/
def evalRec (fuel : Nat) (modules : List ModuleDefinition) :
    List CircuitNode → List Connection → Option Outputs :=
  match fuel with
  | 0 => fun _ _ => none
  | f + 1 => fun ns cs => evaluateCircuit f ns cs modules

/-- The cycle detector: in-degree is incremented once per existing-endpoint
connection while the adjacency is a set of distinct successors; Kahn
peeling; a connection is reported iff both endpoints were never removed. -/
def detectCycleConnections (nodes : List CircuitNode)
    (conns : List Connection) : List String :=
  let deg0 : List (String × Int) := nodes.foldl (fun m n => setKV m n.id 0) []
  let adj0 : List (String × List String) :=
    nodes.foldl (fun m n => setKV m n.id []) []
  let built := conns.foldl
    (fun p c =>
      if (getKV p.1 c.fromNodeId).isSome && (getKV p.2 c.toNodeId).isSome then
        (setKV p.1 c.fromNodeId (addIfAbsent ((getKV p.1 c.fromNodeId).getD []) c.toNodeId),
         incKey p.2 c.toNodeId)
      else p)
    (adj0, deg0)
  let q0 : List String := (built.2.filter fun p => decide (p.2 = 0)).map (·.1)
  let processed : List String :=
    (kahnLoop built.1 (q0.length + countPos built.2) q0 built.2).1
  let cycleIds : List String :=
    (nodes.filter fun n => decide (¬ n.id ∈ processed)).map (·.id)
  (conns.filter fun c =>
    decide (c.fromNodeId ∈ cycleIds) && decide (c.toNodeId ∈ cycleIds)).map (·.id)

/-- Breadth-first search of `wouldCreateCycle`: pop, answer on hitting the
target, skip visited, otherwise mark and push all successors.  Fuel bounds
the iterations; `connections.length + 1` is always sufficient
(see `bfsReach_complete`). -/
def bfsReach (conns : List Connection) (target : String) :
    Nat → List String → List String → Bool
  | 0, _, _ => false
  | _ + 1, _, [] => false
  | fuel + 1, visited, current :: rest =>
      if current = target then true
      else if current ∈ visited then bfsReach conns target fuel visited rest
      else
        bfsReach conns target fuel (current :: visited)
          (rest ++ ((conns.filter fun c => decide (c.fromNodeId = current)).map (·.toNodeId)))

/-- The pre-commit check: a candidate edge creates a cycle iff it is a
self-loop or its source is reachable from its destination. -/
def wouldCreateCycle (conns : List Connection) (fromNodeId toNodeId : String) :
    Bool :=
  if fromNodeId = toNodeId then true
  else bfsReach conns fromNodeId (conns.length + 1) [] [toNodeId]

/-- One step along an existing connection, forward. -/
def connStep (conns : List Connection) (x y : String) : Prop :=
  ∃ c ∈ conns, c.fromNodeId = x ∧ c.toNodeId = y

/-- Modelled from the spec (§4.2, MODULE case): the standalone evaluation a
module instance must reproduce — clone the definition's internal nodes with
every designated external INPUT node's held value set to the instance's
corresponding positional input (its position within the designated
external-input id list), evaluate the internal nodes and connections, and
read each designated external output node's first output, `false` if
absent. -/
def moduleSpecEval (fuel : Nat) (md : ModuleDefinition)
    (modules : List ModuleDefinition) (ivs : List Bool) : Option (List Bool) :=
  let internal := md.nodes.map fun n =>
    if n.type = GateType.INPUT then
      match md.inputNodeIds.findIdx? (fun x => decide (x = n.id)) with
      | some idx => { n with inputValue := some (ivs.getD idx false) }
      | none => n
    else n
  (evaluateCircuit fuel internal md.connections modules).map fun res =>
    md.outputNodeIds.map fun oid => ((lookupOut res oid).getD []).getD 0 false

/-! Concrete circuits used by witnesses and counterexamples. -/

/-- A single INPUT node holding `true`. -/
def inpNodeI : CircuitNode :=
  ⟨"i", GateType.INPUT, 0, 1, some true, none, none, none⟩

/-- Two NOT gates wired output-to-input of each other: a two-node cycle. -/
def cycNodes : List CircuitNode :=
  [⟨"a", GateType.NOT, 1, 1, none, none, none, none⟩,
   ⟨"b", GateType.NOT, 1, 1, none, none, none, none⟩]

/-- The two connections of the two-node cycle. -/
def cycConns : List Connection :=
  [⟨"c1", "a", 0, "b", 0⟩, ⟨"c2", "b", 0, "a", 0⟩]

/-- A true INPUT driving pin 0 of a two-input OR whose pin 1 is
unconnected. -/
def orNodes : List CircuitNode :=
  [inpNodeI, ⟨"g", GateType.OR, 2, 1, none, none, none, none⟩]

/-- The single connection of the OR example. -/
def orConns : List Connection :=
  [⟨"ci", "i", 0, "g", 0⟩]

/-- A lone two-input AND gate with no connections. -/
def andAlone : List CircuitNode :=
  [⟨"g", GateType.AND, 2, 1, none, none, none, none⟩]

/-- Three gates A, B, C with parallel connections A→B (two distinct pins)
and one connection B→C: an acyclic connection set with a multi-edge. -/
def meNodes : List CircuitNode :=
  [⟨"A", GateType.AND, 2, 1, none, none, none, none⟩,
   ⟨"B", GateType.AND, 2, 1, none, none, none, none⟩,
   ⟨"C", GateType.AND, 2, 1, none, none, none, none⟩]

/-- The three connections of the multi-edge example. -/
def meConns : List Connection :=
  [⟨"m1", "A", 0, "B", 0⟩, ⟨"m2", "A", 0, "B", 1⟩, ⟨"m3", "B", 0, "C", 0⟩]

/-- A module definition holding a single two-input AND between two
designated INPUT nodes and one designated OUTPUT node. -/
def andModule : ModuleDefinition :=
  ⟨"M", "andmod",
   [⟨"ia", GateType.INPUT, 0, 1, some false, none, none, none⟩,
    ⟨"ib", GateType.INPUT, 0, 1, some false, none, none, none⟩,
    ⟨"ag", GateType.AND, 2, 1, none, none, none, none⟩,
    ⟨"q", GateType.OUTPUT, 1, 0, none, none, none, none⟩],
   [⟨"w1", "ia", 0, "ag", 0⟩, ⟨"w2", "ib", 0, "ag", 1⟩,
    ⟨"w3", "ag", 0, "q", 0⟩],
   ["ia", "ib"], ["q"], 2, 1⟩

/-- An instance of `andModule`. -/
def andInstance : CircuitNode :=
  ⟨"inst", GateType.MODULE, 2, 1, none, none, none, some "M"⟩

/-- A MODULE node whose referenced definition does not exist. -/
def missNode : CircuitNode :=
  ⟨"miss", GateType.MODULE, 1, 2, none, none, none, some "Z"⟩

/-- A MODULE instance of the self-referencing definition `selfMod`. -/
def selfNode : CircuitNode :=
  ⟨"m", GateType.MODULE, 0, 1, none, none, none, some "SELF"⟩

/-- A module definition whose internal nodes instantiate the definition
itself. -/
def selfMod : ModuleDefinition :=
  ⟨"SELF", "selfmod", [selfNode], [], [], [], 0, 1⟩

/-- A lone NOT gate with no connections. -/
def notAlone : List CircuitNode :=
  [⟨"n", GateType.NOT, 1, 1, none, none, none, none⟩]

/-! Association-list lemmas. -/

theorem getKV_setKV_self {α : Type} (m : List (String × α)) (k : String) (v : α) :
    getKV (setKV m k v) k = some v := by
  induction m with
  | nil => simp [setKV, getKV]
  | cons p rest ih =>
      obtain ⟨k0, v0⟩ := p
      by_cases h0 : k0 = k
      · simp [setKV, getKV, h0]
      · simp [setKV, getKV, h0, ih]

theorem getKV_setKV_ne {α : Type} (m : List (String × α)) {k' k : String} (v : α)
    (h : k' ≠ k) : getKV (setKV m k' v) k = getKV m k := by
  induction m with
  | nil => simp [setKV, getKV, h]
  | cons p rest ih =>
      obtain ⟨k0, v0⟩ := p
      by_cases h0 : k0 = k'
      · subst h0
        simp [setKV, getKV, h]
      · simp only [setKV, if_neg h0]
        by_cases h1 : k0 = k
        · simp [getKV, h1]
        · simp [getKV, h1, ih]

theorem getKV_decKey_isSome (d : List (String × Int)) (s k : String) :
    (getKV (decKey d s) k).isSome = (getKV d k).isSome := by
  induction d with
  | nil => simp [decKey]
  | cons p rest ih =>
      obtain ⟨k0, v0⟩ := p
      by_cases h0 : k0 = s
      · subst h0
        by_cases h1 : k0 = k
        · subst h1
          simp [decKey, getKV]
        · simp [decKey, getKV, h1]
      · by_cases h1 : k0 = k
        · subst h1
          simp [decKey, getKV, h0]
        · simp [decKey, getKV, h0, h1, ih]

theorem countPos_cons (k : String) (v : Int) (rest : List (String × Int)) :
    countPos ((k, v) :: rest) = countPos rest + (if 0 < v then 1 else 0) := by
  by_cases h : 0 < v
  · simp [countPos, List.filter, h]
  · simp [countPos, List.filter, h]

theorem countPos_decKey_le (d : List (String × Int)) (s : String) :
    countPos (decKey d s) ≤ countPos d := by
  induction d with
  | nil => simp [decKey]
  | cons p rest ih =>
      obtain ⟨k0, v0⟩ := p
      by_cases h0 : k0 = s
      · simp only [decKey, if_pos h0, countPos_cons]
        have h1 : (if 0 < v0 - 1 then 1 else 0) ≤ (if 0 < v0 then (1:Nat) else 0) := by
          split <;> split <;> omega
        omega
      · simp only [decKey, if_neg h0, countPos_cons]
        have := ih
        omega

theorem countPos_decKey_zero (d : List (String × Int)) (s : String)
    (h : getKV (decKey d s) s = some 0) :
    countPos (decKey d s) + 1 = countPos d := by
  induction d with
  | nil => simp [decKey, getKV] at h
  | cons p rest ih =>
      obtain ⟨k0, v0⟩ := p
      by_cases h0 : k0 = s
      · subst h0
        simp only [decKey, if_pos rfl, getKV, if_pos rfl] at h
        have hv : v0 - 1 = 0 := Option.some.inj h
        have hv1 : v0 = 1 := by omega
        subst hv1
        have hd : decKey ((k0, (1:Int)) :: rest) k0 = (k0, 0) :: rest := by
          simp [decKey]
        rw [hd, countPos_cons, countPos_cons]
        norm_num
      · simp only [decKey, if_neg h0, getKV, if_neg h0] at h
        simp only [decKey, if_neg h0, countPos_cons]
        have := ih h
        omega

theorem decAll_pot (succs : List String) (deg : List (String × Int)) :
    countPos (decAll deg succs).1 + (decAll deg succs).2.length ≤ countPos deg := by
  induction succs generalizing deg with
  | nil => simp [decAll]
  | cons s ss ih =>
      simp only [decAll]
      by_cases h : getKV (decKey deg s) s = some 0
      · simp only [if_pos h, List.length_cons]
        have h1 := ih (decKey deg s)
        have h2 := countPos_decKey_zero deg s h
        omega
      · simp only [if_neg h]
        have h1 := ih (decKey deg s)
        have h2 := countPos_decKey_le deg s
        omega

theorem decAll_isSome (succs : List String) (deg : List (String × Int)) (k : String) :
    (getKV (decAll deg succs).1 k).isSome = (getKV deg k).isSome := by
  induction succs generalizing deg with
  | nil => simp [decAll]
  | cons s ss ih =>
      by_cases h : getKV (decKey deg s) s = some 0
      · simp only [decAll, if_pos h]
        rw [ih (decKey deg s), getKV_decKey_isSome]
      · simp only [decAll, if_neg h]
        rw [ih (decKey deg s), getKV_decKey_isSome]

theorem decAll_pushed_isSome (succs : List String) (deg : List (String × Int))
    (x : String) (hx : x ∈ (decAll deg succs).2) : (getKV deg x).isSome := by
  induction succs generalizing deg with
  | nil => simp [decAll] at hx
  | cons s ss ih =>
      by_cases h : getKV (decKey deg s) s = some 0
      · simp only [decAll, if_pos h] at hx
        rcases List.mem_cons.mp hx with h1 | h1
        · subst h1
          have h2 : (getKV (decKey deg x) x).isSome := by simp [h]
          rwa [getKV_decKey_isSome] at h2
        · have h2 := ih (decKey deg s) h1
          rwa [getKV_decKey_isSome] at h2
      · simp only [decAll, if_neg h] at hx
        have h2 := ih (decKey deg s) hx
        rwa [getKV_decKey_isSome] at h2

/-! Kahn-loop lemmas: the canonical fuel drains the queue, every queued id
is eventually popped, and every popped id is either initially queued or a
key of the degree table. -/

theorem kahnLoop_drains (outE : List (String × List String)) :
    ∀ (fuel : Nat) (q : List String) (deg : List (String × Int)),
      q.length + countPos deg ≤ fuel → (kahnLoop outE fuel q deg).2 = [] := by
  intro fuel
  induction fuel with
  | zero =>
      intro q deg h
      have h0 : q.length = 0 := by omega
      have hq : q = [] := List.length_eq_zero.mp h0
      subst hq
      simp [kahnLoop]
  | succ fuel ih =>
      intro q deg h
      match q with
      | [] => simp [kahnLoop]
      | id :: rest =>
          simp only [kahnLoop]
          apply ih
          have hpot := decAll_pot ((getKV outE id).getD []) deg
          simp only [List.length_cons] at h
          simp only [List.length_append]
          omega

theorem kahnLoop_mem (outE : List (String × List String)) :
    ∀ (fuel : Nat) (q : List String) (deg : List (String × Int)) (x : String),
      (kahnLoop outE fuel q deg).2 = [] → x ∈ q →
        x ∈ (kahnLoop outE fuel q deg).1 := by
  intro fuel
  induction fuel with
  | zero =>
      intro q deg x hdrain hx
      simp only [kahnLoop] at hdrain
      subst hdrain
      simp at hx
  | succ fuel ih =>
      intro q deg x hdrain hx
      match q with
      | [] => simp at hx
      | id :: rest =>
          simp only [kahnLoop] at hdrain ⊢
          rcases List.mem_cons.mp hx with h1 | h1
          · subst h1
            exact List.mem_cons_self _ _
          · exact List.mem_cons_of_mem _
              (ih _ _ x hdrain (List.mem_append_left _ h1))

theorem kahnLoop_subset (outE : List (String × List String)) :
    ∀ (fuel : Nat) (q : List String) (deg : List (String × Int)) (x : String),
      x ∈ (kahnLoop outE fuel q deg).1 →
        x ∈ q ∨ (getKV deg x).isSome := by
  intro fuel
  induction fuel with
  | zero =>
      intro q deg x hx
      simp [kahnLoop] at hx
  | succ fuel ih =>
      intro q deg x hx
      match q with
      | [] => simp [kahnLoop] at hx
      | id :: rest =>
          simp only [kahnLoop] at hx
          rcases List.mem_cons.mp hx with h1 | h1
          · subst h1
            exact Or.inl (List.mem_cons_self _ _)
          · rcases ih _ _ x h1 with h2 | h2
            · rcases List.mem_append.mp h2 with h3 | h3
              · exact Or.inl (List.mem_cons_of_mem _ h3)
              · exact Or.inr (decAll_pushed_isSome _ deg x h3)
            · right
              rwa [decAll_isSome] at h2

/-! Evaluation-loop lemmas. -/

theorem evaluateCircuit_eq (fuel : Nat) (nodes : List CircuitNode)
    (conns : List Connection) (modules : List ModuleDefinition) :
    evaluateCircuit fuel nodes conns modules =
      evalLoop (evalRec fuel modules) modules nodes conns
        (kahnOrder nodes conns) [] := by
  cases fuel <;> rfl

theorem getKV_setKV_isSome {α : Type} (m : List (String × α)) (k' k : String)
    (v : α) (h : (getKV m k).isSome = true) :
    (getKV (setKV m k' v) k).isSome = true := by
  by_cases h0 : k' = k
  · subst h0
    simp [getKV_setKV_self]
  · rwa [getKV_setKV_ne m v h0]

theorem evalNodeAux_shape
    (recurse : List CircuitNode → List Connection → Option Outputs)
    (ms : List ModuleDefinition) (cs : List Connection)
    (nodes : List CircuitNode) (st : Outputs) (nid : String) (st' : Outputs)
    (h : evalNodeAux recurse ms cs nodes st nid = some st') :
    st' = st ∨ ∃ v, st' = setk st nid v := by
  unfold evalNodeAux at h
  cases hf : nodes.find? (fun n => decide (n.id = nid)) with
  | none =>
      rw [hf] at h
      exact Or.inl (Option.some.inj h).symm
  | some node =>
      rw [hf] at h
      rcases Option.map_eq_some'.mp h with ⟨ov, _, hset⟩
      exact Or.inr ⟨ov, hset.symm⟩

theorem evalLoop_frame
    (recurse : List CircuitNode → List Connection → Option Outputs)
    (ms : List ModuleDefinition) (nodes : List CircuitNode)
    (cs : List Connection) :
    ∀ (order : List String) (st out : Outputs),
      evalLoop recurse ms nodes cs order st = some out →
      ∀ k, ¬ k ∈ order → lookupOut out k = lookupOut st k := by
  intro order
  induction order with
  | nil =>
      intro st out h k _
      simp only [evalLoop] at h
      rw [Option.some.inj h]
  | cons nid rest ih =>
      intro st out h k hk
      simp only [evalLoop] at h
      cases hstep : evalNodeAux recurse ms cs nodes st nid with
      | none => rw [hstep] at h; exact absurd h (by simp)
      | some st1 =>
          rw [hstep] at h
          have hk1 : ¬ k ∈ rest := fun hh => hk (List.mem_cons_of_mem _ hh)
          have hk2 : k ≠ nid := fun hh => hk (hh ▸ List.mem_cons_self _ _)
          rw [ih st1 out h k hk1]
          rcases evalNodeAux_shape recurse ms cs nodes st nid st1 hstep with
            h1 | ⟨v, h1⟩
          · rw [h1]
          · rw [h1]
            exact getKV_setKV_ne st v (fun hh => hk2 hh.symm)

theorem evalLoop_persist
    (recurse : List CircuitNode → List Connection → Option Outputs)
    (ms : List ModuleDefinition) (nodes : List CircuitNode)
    (cs : List Connection) :
    ∀ (order : List String) (st out : Outputs),
      evalLoop recurse ms nodes cs order st = some out →
      ∀ k, (lookupOut st k).isSome = true → (lookupOut out k).isSome = true := by
  intro order
  induction order with
  | nil =>
      intro st out h k hk
      simp only [evalLoop] at h
      rwa [← Option.some.inj h]
  | cons nid rest ih =>
      intro st out h k hk
      simp only [evalLoop] at h
      cases hstep : evalNodeAux recurse ms cs nodes st nid with
      | none => rw [hstep] at h; exact absurd h (by simp)
      | some st1 =>
          rw [hstep] at h
          apply ih st1 out h k
          rcases evalNodeAux_shape recurse ms cs nodes st nid st1 hstep with
            h1 | ⟨v, h1⟩
          · rwa [h1]
          · rw [h1]
            exact getKV_setKV_isSome st nid k v hk

theorem evalLoop_const
    (recurse : List CircuitNode → List Connection → Option Outputs)
    (ms : List ModuleDefinition) (nodes : List CircuitNode)
    (cs : List Connection) (nid : String) (v : List Bool)
    (hstep : ∀ st : Outputs,
      evalNodeAux recurse ms cs nodes st nid = some (setk st nid v)) :
    ∀ (order : List String) (st out : Outputs),
      evalLoop recurse ms nodes cs order st = some out → nid ∈ order →
        lookupOut out nid = some v := by
  intro order
  induction order with
  | nil => intro st out _ hmem; simp at hmem
  | cons h0 rest ih =>
      intro st out h hmem
      simp only [evalLoop] at h
      cases hs : evalNodeAux recurse ms cs nodes st h0 with
      | none => rw [hs] at h; exact absurd h (by simp)
      | some st1 =>
          rw [hs] at h
          by_cases hr : nid ∈ rest
          · exact ih st1 out h hr
          · have hh : nid = h0 := by
              rcases List.mem_cons.mp hmem with h1 | h1
              · exact h1
              · exact absurd h1 hr
            subst hh
            rw [hstep st] at hs
            have hst1 : st1 = setk st nid v := (Option.some.inj hs).symm
            rw [evalLoop_frame recurse ms nodes cs rest st1 out h nid hr, hst1]
            exact getKV_setKV_self st nid v

theorem evalLoop_some_mem
    (recurse : List CircuitNode → List Connection → Option Outputs)
    (ms : List ModuleDefinition) (nodes : List CircuitNode)
    (cs : List Connection) :
    ∀ (order : List String) (st out : Outputs),
      evalLoop recurse ms nodes cs order st = some out →
      ∀ k, (lookupOut out k).isSome = true →
        (lookupOut st k).isSome = true ∨ k ∈ order := by
  intro order
  induction order with
  | nil =>
      intro st out h k hk
      simp only [evalLoop] at h
      have h2 : st = out := Option.some.inj h
      subst h2
      exact Or.inl hk
  | cons nid rest ih =>
      intro st out h k hk
      simp only [evalLoop] at h
      cases hstep : evalNodeAux recurse ms cs nodes st nid with
      | none => rw [hstep] at h; exact absurd h (by simp)
      | some st1 =>
          rw [hstep] at h
          rcases ih st1 out h k hk with h1 | h1
          · rcases evalNodeAux_shape recurse ms cs nodes st nid st1 hstep with
              h2 | ⟨v, h2⟩
            · rw [h2] at h1
              exact Or.inl h1
            · by_cases h3 : k = nid
              · exact Or.inr (h3 ▸ List.mem_cons_self _ _)
              · rw [h2] at h1
                unfold lookupOut setk at h1
                rw [getKV_setKV_ne st v (fun hh => h3 hh.symm)] at h1
                exact Or.inl h1
          · exact Or.inr (List.mem_cons_of_mem _ h1)

theorem find?_of_mem_ids (nodes : List CircuitNode) (k : String)
    (hk : k ∈ nodes.map (·.id)) :
    ∃ n, nodes.find? (fun n => decide (n.id = k)) = some n := by
  induction nodes with
  | nil => simp at hk
  | cons n rest ih =>
      by_cases h : n.id = k
      · exact ⟨n, List.find?_cons_of_pos _ (by simp [h])⟩
      · have hk2 : k ∈ rest.map (·.id) := by
          rcases List.mem_map.mp hk with ⟨m, hm, hmk⟩
          rcases List.mem_cons.mp hm with h1 | h1
          · exact absurd (h1 ▸ hmk) h
          · exact List.mem_map.mpr ⟨m, h1, hmk⟩
        rcases ih hk2 with ⟨m, hm⟩
        exact ⟨m, by rw [List.find?_cons_of_neg _ (by simp [h]), hm]⟩

theorem evalLoop_mem_isSome
    (recurse : List CircuitNode → List Connection → Option Outputs)
    (ms : List ModuleDefinition) (nodes : List CircuitNode)
    (cs : List Connection) :
    ∀ (order : List String) (st out : Outputs),
      evalLoop recurse ms nodes cs order st = some out →
      ∀ k, k ∈ order → k ∈ nodes.map (·.id) →
        (lookupOut out k).isSome = true := by
  intro order
  induction order with
  | nil => intro st out _ k hk; simp at hk
  | cons nid rest ih =>
      intro st out h k hk hkid
      simp only [evalLoop] at h
      cases hstep : evalNodeAux recurse ms cs nodes st nid with
      | none => rw [hstep] at h; exact absurd h (by simp)
      | some st1 =>
          rw [hstep] at h
          by_cases hr : k ∈ rest
          · exact ih st1 out h k hr hkid
          · have hh : k = nid := by
              rcases List.mem_cons.mp hk with h1 | h1
              · exact h1
              · exact absurd h1 hr
            subst hh
            rcases find?_of_mem_ids nodes k hkid with ⟨node, hf⟩
            unfold evalNodeAux at hstep
            rw [hf] at hstep
            rcases Option.map_eq_some'.mp hstep with ⟨ov, _, hset⟩
            apply evalLoop_persist recurse ms nodes cs rest st1 out h k
            rw [← hset]
            unfold lookupOut setk
            simp [getKV_setKV_self]

/-! Lemmas about the construction of the degree table and adjacency. -/

theorem foldl_setKV_isSome {α β : Type} (f : β → String) (v : β → α) :
    ∀ (l : List β) (m : List (String × α)) (k : String),
      (getKV (l.foldl (fun m b => setKV m (f b) (v b)) m) k).isSome = true →
      (getKV m k).isSome = true ∨ k ∈ l.map f := by
  intro l
  induction l with
  | nil => intro m k h; exact Or.inl h
  | cons b rest ih =>
      intro m k h
      rcases ih (setKV m (f b) (v b)) k h with h1 | h1
      · by_cases h2 : f b = k
        · exact Or.inr (by simp [List.mem_map]; exact Or.inl h2.symm)
        · rw [getKV_setKV_ne m (v b) h2] at h1
          exact Or.inl h1
      · exact Or.inr (List.mem_cons_of_mem _ h1)

theorem foldl_setKV_fixed {α β : Type} (f : β → String) (v : β → α)
    (k : String) (a : α) :
    ∀ (l : List β) (m : List (String × α)),
      (∀ b ∈ l, f b = k → v b = a) →
      (getKV m k = some a ∨ k ∈ l.map f) →
      getKV (l.foldl (fun m b => setKV m (f b) (v b)) m) k = some a := by
  intro l
  induction l with
  | nil =>
      intro m _ hd
      rcases hd with h | h
      · exact h
      · simp at h
  | cons b rest ih =>
      intro m hv hd
      apply ih (setKV m (f b) (v b))
      · intro b2 hb2 hfb2
        exact hv b2 (List.mem_cons_of_mem _ hb2) hfb2
      · by_cases h2 : f b = k
        · left
          rw [← h2, getKV_setKV_self, hv b (List.mem_cons_self _ _) h2]
        · rcases hd with h3 | h3
          · left
            rwa [getKV_setKV_ne m (v b) h2]
          · right
            rcases List.mem_cons.mp h3 with h4 | h4
            · exact absurd h4.symm h2
            · exact h4

theorem kahnOrder_subset (nodes : List CircuitNode) (conns : List Connection) :
    ∀ x ∈ kahnOrder nodes conns, x ∈ nodes.map (·.id) := by
  intro x hx
  unfold kahnOrder at hx
  rcases kahnLoop_subset _ _ _ _ x hx with h1 | h1
  · rcases List.mem_map.mp h1 with ⟨n, hn, hnx⟩
    exact List.mem_map.mpr ⟨n, (List.mem_filter.mp hn).1, hnx⟩
  · unfold evalDeg at h1
    rcases foldl_setKV_isSome (·.id) _ nodes [] x h1 with h2 | h2
    · simp [getKV] at h2
    · exact h2

theorem mem_kahnOrder_of_deg_zero (nodes : List CircuitNode)
    (conns : List Connection) (nid : String)
    (hmem : nid ∈ nodes.map (·.id))
    (hdeg : getKV (evalDeg nodes (buildAdj nodes conns).2) nid = some 0) :
    nid ∈ kahnOrder nodes conns := by
  unfold kahnOrder
  apply kahnLoop_mem
  · exact kahnLoop_drains _ _ _ _ (Nat.le_refl _)
  · rcases List.mem_map.mp hmem with ⟨n, hn, hnid⟩
    refine List.mem_map.mpr ⟨n, List.mem_filter.mpr ⟨hn, ?_⟩, hnid⟩
    simp only [decide_eq_true_eq]
    rw [hnid]
    exact hdeg

theorem foldl_adjStep_inE (nid : String) :
    ∀ (conns : List Connection)
      (p : List (String × List String) × List (String × List String)),
      (∀ c ∈ conns, c.toNodeId ≠ nid) → getKV p.2 nid = some [] →
      getKV (conns.foldl adjStep p).2 nid = some [] := by
  intro conns
  induction conns with
  | nil => intro p _ h; exact h
  | cons c rest ih =>
      intro p hno h
      simp only [List.foldl_cons]
      apply ih (adjStep p c)
      · intro c2 hc2
        exact hno c2 (List.mem_cons_of_mem _ hc2)
      · unfold adjStep
        split
        · simp only
          rw [getKV_setKV_ne p.2 _ (hno c (List.mem_cons_self _ _))]
          exact h
        · exact h

theorem buildAdj_inE_empty (nodes : List CircuitNode) (conns : List Connection)
    (nid : String) (hmem : nid ∈ nodes.map (·.id))
    (hno : ∀ c ∈ conns, c.toNodeId ≠ nid) :
    getKV (buildAdj nodes conns).2 nid = some [] := by
  unfold buildAdj
  apply foldl_adjStep_inE nid conns _ hno
  exact foldl_setKV_fixed (·.id) (fun _ => []) nid [] nodes []
    (fun _ _ _ => rfl) (Or.inr hmem)

theorem evalDeg_zero (nodes : List CircuitNode)
    (inE : List (String × List String)) (nid : String)
    (hmem : nid ∈ nodes.map (·.id)) (hin : getKV inE nid = some []) :
    getKV (evalDeg nodes inE) nid = some 0 := by
  unfold evalDeg
  apply foldl_setKV_fixed (·.id) _ nid 0 nodes [] _ (Or.inr hmem)
  intro b _ hb
  have hb2 : b.id = nid := hb
  rw [hb2, hin]
  rfl

/-! Gathered-input lemmas. -/

theorem gatherInputs_length (st : Outputs) (cs : List Connection) (nid : String)
    (count : Nat) : (gatherInputs st cs nid count).length = count := by
  simp [gatherInputs]

theorem gatherInputs_getD (st : Outputs) (cs : List Connection) (nid : String)
    (count i : Nat) (hi : i < count) :
    (gatherInputs st cs nid count).getD i false =
      (match cs.find? (fun c => decide (c.toNodeId = nid) && decide (c.toPinIndex = i)) with
       | some c => getVal st c.fromNodeId c.fromPinIndex
       | none => false) := by
  unfold gatherInputs
  have hlen : i < ((List.range count).map (fun i =>
      match cs.find? (fun c => decide (c.toNodeId = nid) && decide (c.toPinIndex = i)) with
      | some c => getVal st c.fromNodeId c.fromPinIndex
      | none => false)).length := by
    simpa using hi
  rw [List.getD_eq_getElem _ false hlen]
  simp [List.getElem_map, List.getElem_range, hi]

theorem gatherInputs_unconnected (st : Outputs) (cs : List Connection)
    (nid : String) (count i : Nat)
    (hnone : cs.find? (fun c => decide (c.toNodeId = nid) && decide (c.toPinIndex = i)) = none) :
    (gatherInputs st cs nid count).getD i false = false := by
  by_cases hi : i < count
  · rw [gatherInputs_getD st cs nid count i hi, hnone]
  · rw [List.getD_eq_default]
    rw [gatherInputs_length]
    omega

theorem countP_two_le {α : Type} (p : α → Bool) (l : List α) (a b : α)
    (ha : a ∈ l) (hb : b ∈ l) (hab : a ≠ b) (hpa : p a = true)
    (hpb : p b = true) : 2 ≤ l.countP p := by
  induction l with
  | nil => simp at ha
  | cons x rest ih =>
      rw [List.countP_cons]
      rcases List.mem_cons.mp ha with h1 | h1
      · subst h1
        have hbr : b ∈ rest := by
          rcases List.mem_cons.mp hb with h2 | h2
          · exact absurd h2.symm hab
          · exact h2
        have h3 : 0 < rest.countP p :=
          List.countP_pos_iff.mpr ⟨b, hbr, hpb⟩
        rw [hpa, if_pos rfl]
        omega
      · rcases List.mem_cons.mp hb with h2 | h2
        · subst h2
          have har : a ∈ rest := h1
          have h3 : 0 < rest.countP p :=
            List.countP_pos_iff.mpr ⟨a, har, hpa⟩
          rw [hpb, if_pos rfl]
          omega
        · have := ih h1 h2
          omega

/-! Per-node step lemmas used by the gate-level claims. -/

theorem evalNodeAux_and_false
    (recurse : List CircuitNode → List Connection → Option Outputs)
    (ms : List ModuleDefinition) (cs : List Connection)
    (nodes : List CircuitNode) (nid : String) (node : CircuitNode)
    (hfind : nodes.find? (fun n => decide (n.id = nid)) = some node)
    (htype : node.type = GateType.AND)
    (hcnt : (cs.countP fun c => decide (c.toNodeId = nid)) ≤ 1)
    (st : Outputs) :
    evalNodeAux recurse ms cs nodes st nid = some (setk st nid [false]) := by
  have hval : (decide (2 ≤ (gatherInputs st cs nid node.inputCount).length) &&
      (gatherInputs st cs nid node.inputCount).getD 0 false &&
      (gatherInputs st cs nid node.inputCount).getD 1 false) = false := by
    by_cases h2 : 2 ≤ node.inputCount
    · have hor : cs.find? (fun c => decide (c.toNodeId = nid) && decide (c.toPinIndex = 0)) = none ∨
          cs.find? (fun c => decide (c.toNodeId = nid) && decide (c.toPinIndex = 1)) = none := by
        by_contra hcon
        push_neg at hcon
        rcases Option.ne_none_iff_exists'.mp hcon.1 with ⟨c0, hc0⟩
        rcases Option.ne_none_iff_exists'.mp hcon.2 with ⟨c1, hc1⟩
        have hm0 := List.mem_of_find?_eq_some hc0
        have hm1 := List.mem_of_find?_eq_some hc1
        have hp0 := List.find?_some hc0
        have hp1 := List.find?_some hc1
        rw [Bool.and_eq_true, decide_eq_true_eq, decide_eq_true_eq] at hp0 hp1
        have hne : c0 ≠ c1 := by
          intro hh
          rw [hh] at hp0
          omega
        have := countP_two_le (fun c => decide (c.toNodeId = nid)) cs c0 c1
          hm0 hm1 hne (by simp [hp0.1]) (by simp [hp1.1])
        omega
      rcases hor with hnone | hnone
      · rw [gatherInputs_unconnected st cs nid node.inputCount 0 hnone]
        simp
      · rw [gatherInputs_unconnected st cs nid node.inputCount 1 hnone]
        simp
    · have hlen : (gatherInputs st cs nid node.inputCount).length = node.inputCount :=
        gatherInputs_length st cs nid node.inputCount
      have : decide (2 ≤ (gatherInputs st cs nid node.inputCount).length) = false := by
        rw [hlen]
        simpa using h2
      rw [this]
      simp
  simp only [evalNodeAux, hfind, evalGate, htype, Option.map_some']
  rw [hval]

theorem evalNodeAux_module_missing
    (recurse : List CircuitNode → List Connection → Option Outputs)
    (ms : List ModuleDefinition) (cs : List Connection)
    (nodes : List CircuitNode) (nid : String) (node : CircuitNode)
    (hfind : nodes.find? (fun n => decide (n.id = nid)) = some node)
    (htype : node.type = GateType.MODULE)
    (hmiss : ms.find? (fun m => decide (some m.id = node.moduleId)) = none)
    (st : Outputs) :
    evalNodeAux recurse ms cs nodes st nid =
      some (setk st nid (List.replicate node.outputCount false)) := by
  simp only [evalNodeAux, hfind, evalGate, htype, hmiss, Option.map_some']

theorem evalNodeAux_not_unconnected
    (recurse : List CircuitNode → List Connection → Option Outputs)
    (ms : List ModuleDefinition) (cs : List Connection)
    (nodes : List CircuitNode) (nid : String) (node : CircuitNode)
    (hfind : nodes.find? (fun n => decide (n.id = nid)) = some node)
    (htype : node.type = GateType.NOT)
    (hnone : cs.find? (fun c => decide (c.toNodeId = nid) && decide (c.toPinIndex = 0)) = none)
    (st : Outputs) :
    evalNodeAux recurse ms cs nodes st nid = some (setk st nid [true]) := by
  simp only [evalNodeAux, hfind, evalGate, htype, Option.map_some']
  rw [gatherInputs_unconnected st cs nid node.inputCount 0 hnone]
  rfl

/-! Claim theorems. -/

/-- Claim C1, counterexample to the claim as stated: on the two-node cycle
the evaluator terminates but returns the empty mapping, so the node `a` of
the scope has no output vector and no fallback evaluation ever happened. -/
theorem cycle_nodes_absent_from_result :
    evaluateCircuit 3 cycNodes cycConns [] = some [] ∧
      "a" ∈ cycNodes.map (fun n => n.id) ∧ lookupOut [] "a" = none := by
  constructor
  · decide
  constructor
  · decide
  · decide

/-- Claim C1 (amended): whenever `evaluateCircuit` returns a mapping, that
mapping contains an output vector for exactly the node ids removed during
Kahn's zero-in-degree peeling (`kahnOrder`); nodes that never reach
in-degree zero — in particular the nodes of a directed cycle — are not
evaluated at all and are absent from the result. -/
theorem evaluateCircuit_domain_eq_kahnOrder (fuel : Nat)
    (nodes : List CircuitNode) (conns : List Connection)
    (modules : List ModuleDefinition) (out : Outputs)
    (heval : evaluateCircuit fuel nodes conns modules = some out) :
    ∀ k, (lookupOut out k).isSome = true ↔ k ∈ kahnOrder nodes conns := by
  rw [evaluateCircuit_eq] at heval
  intro k
  constructor
  · intro h
    rcases evalLoop_some_mem _ modules nodes conns _ [] out heval k h with h1 | h1
    · simp [lookupOut, getKV] at h1
    · exact h1
  · intro h
    exact evalLoop_mem_isSome _ modules nodes conns _ [] out heval k h
      (kahnOrder_subset nodes conns k h)

/-- Witness for the amended C1 theorem at a concrete one-node circuit. -/
theorem evaluateCircuit_domain_eq_kahnOrder_witness :
    (lookupOut [("i", [true])] "i").isSome = true ↔
      "i" ∈ kahnOrder [inpNodeI] [] :=
  evaluateCircuit_domain_eq_kahnOrder 0 [inpNodeI] [] [] [("i", [true])]
    (by decide) "i"

/-- Claim C2, counterexample to the claim as stated: an OR node with exactly
one connected input (a true INPUT on pin 0) outputs `true`, not `false`. -/
theorem or_single_connected_input_true :
    (orConns.countP fun c => decide (c.toNodeId = "g")) = 1 ∧
      lookupOut ((evaluateCircuit 0 orNodes orConns []).getD []) "g" =
        some [true] := by
  constructor
  · decide
  · decide

/-- Claim C2 (amended): an AND node with at most one connection terminating
at its input pins (zero or one connected input) that the evaluator
schedules outputs `false`; the claim as stated fails for OR, where a single
connected true input already yields `true`. -/
theorem and_underconnected_output_false (fuel : Nat)
    (nodes : List CircuitNode) (conns : List Connection)
    (modules : List ModuleDefinition) (out : Outputs) (nid : String)
    (node : CircuitNode)
    (heval : evaluateCircuit fuel nodes conns modules = some out)
    (hfind : nodes.find? (fun n => decide (n.id = nid)) = some node)
    (htype : node.type = GateType.AND)
    (hcnt : (conns.countP fun c => decide (c.toNodeId = nid)) ≤ 1)
    (hsched : nid ∈ kahnOrder nodes conns) :
    lookupOut out nid = some [false] := by
  rw [evaluateCircuit_eq] at heval
  exact evalLoop_const _ modules nodes conns nid [false]
    (evalNodeAux_and_false _ modules conns nodes nid node hfind htype hcnt)
    (kahnOrder nodes conns) [] out heval hsched

/-- Witness for the amended C2 theorem at a lone unconnected AND gate. -/
theorem and_underconnected_output_false_witness :
    lookupOut [("g", [false])] "g" = some [false] :=
  and_underconnected_output_false 0 andAlone [] [] [("g", [false])] "g"
    ⟨"g", GateType.AND, 2, 1, none, none, none, none⟩ (by decide) (by decide)
    (by decide) (by decide) (by decide)

/-- Claim C6: a MODULE node whose referenced definition is missing from the
module table is assigned an all-false vector of length `outputCount`, and
the evaluator returns normally (no error is modelled or needed: the miss
branch is total). -/
theorem module_missing_def_allfalse (fuel : Nat) (nodes : List CircuitNode)
    (conns : List Connection) (modules : List ModuleDefinition)
    (out : Outputs) (nid : String) (node : CircuitNode)
    (heval : evaluateCircuit fuel nodes conns modules = some out)
    (hfind : nodes.find? (fun n => decide (n.id = nid)) = some node)
    (htype : node.type = GateType.MODULE)
    (hmiss : modules.find? (fun m => decide (some m.id = node.moduleId)) = none)
    (hsched : nid ∈ kahnOrder nodes conns) :
    lookupOut out nid = some (List.replicate node.outputCount false) := by
  rw [evaluateCircuit_eq] at heval
  exact evalLoop_const _ modules nodes conns nid
    (List.replicate node.outputCount false)
    (evalNodeAux_module_missing _ modules conns nodes nid node hfind htype hmiss)
    (kahnOrder nodes conns) [] out heval hsched

/-- Witness for C6 at a module instance whose definition id matches no
definition. -/
theorem module_missing_def_allfalse_witness :
    lookupOut [("miss", [false, false])] "miss" =
      some (List.replicate 2 false) :=
  module_missing_def_allfalse 0 [missNode] [] [] [("miss", [false, false])]
    "miss" missNode (by decide) (by decide) (by decide) (by decide) (by decide)

/-- Claim C8: the evaluator is deterministic — two invocations on identical
(nodes, connections, modules) snapshots, here restricted as in the claim to
scopes the cycle detector reports clean, yield identical mappings.  In this
pure-function embedding this is immediate; the source likewise contains no
nondeterministic primitive, and all its iteration orders are fixed by the
input lists. -/
theorem evaluateCircuit_deterministic (fuel : Nat) (nodes : List CircuitNode)
    (conns : List Connection) (modules : List ModuleDefinition)
    (r1 r2 : Option Outputs)
    (_hacyc : detectCycleConnections nodes conns = [])
    (h1 : evaluateCircuit fuel nodes conns modules = r1)
    (h2 : evaluateCircuit fuel nodes conns modules = r2) : r1 = r2 := by
  rw [h1] at h2
  exact h2

/-- Witness for C8 at a concrete acyclic one-node circuit. -/
theorem evaluateCircuit_deterministic_witness :
    (some [("i", [true])] : Option Outputs) = some [("i", [true])] :=
  evaluateCircuit_deterministic 0 [inpNodeI] [] [] (some [("i", [true])])
    (some [("i", [true])]) (by decide) (by decide) (by decide)

/-- Claim C9: a NOT node none of whose input pins is driven — for a
well-formed NOT (single input pin 0) this is exactly "no connection
terminating at its input pin 0" — is assigned the output vector
`[true]`. -/
theorem not_unconnected_outputs_true (fuel : Nat) (nodes : List CircuitNode)
    (conns : List Connection) (modules : List ModuleDefinition)
    (out : Outputs) (nid : String) (node : CircuitNode)
    (heval : evaluateCircuit fuel nodes conns modules = some out)
    (hfind : nodes.find? (fun n => decide (n.id = nid)) = some node)
    (htype : node.type = GateType.NOT)
    (hno : ∀ c ∈ conns, c.toNodeId ≠ nid) :
    lookupOut out nid = some [true] := by
  have hid : node.id = nid := by
    have := List.find?_some hfind
    simpa using this
  have hmem : nid ∈ nodes.map (·.id) :=
    List.mem_map.mpr ⟨node, List.mem_of_find?_eq_some hfind, hid⟩
  have hsched : nid ∈ kahnOrder nodes conns :=
    mem_kahnOrder_of_deg_zero nodes conns nid hmem
      (evalDeg_zero nodes _ nid hmem (buildAdj_inE_empty nodes conns nid hmem hno))
  have hnone : conns.find?
      (fun c => decide (c.toNodeId = nid) && decide (c.toPinIndex = 0)) = none := by
    rw [List.find?_eq_none]
    intro c hc
    simp [hno c hc]
  rw [evaluateCircuit_eq] at heval
  exact evalLoop_const _ modules nodes conns nid [true]
    (evalNodeAux_not_unconnected _ modules conns nodes nid node hfind htype hnone)
    (kahnOrder nodes conns) [] out heval
    hsched

/-- Witness for C9 at a lone unconnected NOT gate. -/
theorem not_unconnected_outputs_true_witness :
    lookupOut [("n", [true])] "n" = some [true] :=
  not_unconnected_outputs_true 0 notAlone [] [] [("n", [true])] "n"
    ⟨"n", GateType.NOT, 1, 1, none, none, none, none⟩ (by decide) (by decide)
    (by decide) (by decide)

/-- Claim C10: every connection id reported by the cycle detector belongs
to a connection of the given list both of whose endpoints exist in the
given node list; dangling connections are never reported. -/
theorem detectCycle_endpoints_exist (nodes : List CircuitNode)
    (conns : List Connection) (rid : String)
    (h : rid ∈ detectCycleConnections nodes conns) :
    ∃ c ∈ conns, c.id = rid ∧ c.fromNodeId ∈ nodes.map (·.id) ∧
      c.toNodeId ∈ nodes.map (·.id) := by
  simp only [detectCycleConnections] at h
  rcases List.mem_map.mp h with ⟨c, hc, hcid⟩
  have hc2 := List.mem_filter.mp hc
  have hpred := hc2.2
  rw [Bool.and_eq_true, decide_eq_true_eq, decide_eq_true_eq] at hpred
  refine ⟨c, hc2.1, hcid, ?_, ?_⟩
  · rcases List.mem_map.mp hpred.1 with ⟨n, hn, hnid⟩
    exact List.mem_map.mpr ⟨n, (List.mem_filter.mp hn).1, hnid⟩
  · rcases List.mem_map.mp hpred.2 with ⟨n, hn, hnid⟩
    exact List.mem_map.mpr ⟨n, (List.mem_filter.mp hn).1, hnid⟩

/-- Witness for C10 at the two-node cycle, whose connection `c1` is
reported and indeed joins two existing nodes. -/
theorem detectCycle_endpoints_exist_witness :
    ∃ c ∈ cycConns, c.id = "c1" ∧ c.fromNodeId ∈ cycNodes.map (·.id) ∧
      c.toNodeId ∈ cycNodes.map (·.id) :=
  detectCycle_endpoints_exist cycNodes cycConns "c1" (by decide)

/-- Claim C3, exhibit of the divergence: on the acyclic multi-edge graph
(two parallel connections A→B on distinct pins plus B→C) the detector
reports connection `m3`, because B's in-degree is incremented once per
connection but decremented only once per distinct predecessor, so B and C
are never peeled; the evaluator's own peeling (distinct-predecessor
counting) removes every node of the same graph. -/
theorem detectCycle_reports_acyclic_multiedge :
    detectCycleConnections meNodes meConns = ["m3"] ∧
      kahnOrder meNodes meConns = ["A", "B", "C"] := by
  constructor
  · decide
  · decide

/-- Divergence of the self-instantiating module: the evaluator's module
recursion never returns, at any modelled depth. -/
theorem selfmod_eval_none (fuel : Nat) :
    evaluateCircuit fuel [selfNode] [] [selfMod] = none := by
  induction fuel with
  | zero => decide
  | succ f ih =>
      rw [evaluateCircuit_eq]
      rw [show kahnOrder [selfNode] [] = ["m"] from by decide]
      simp only [evalLoop]
      have hfind : List.find? (fun n => decide (n.id = "m")) [selfNode] =
          some selfNode := by decide
      have hmd : List.find? (fun m => decide (some m.id = selfNode.moduleId))
          [selfMod] = some selfMod := by decide
      simp only [evalNodeAux, hfind, evalGate,
        show selfNode.type = GateType.MODULE from rfl, hmd]
      rw [show moduleInternal selfMod
            (gatherInputs [] [] "m" selfNode.inputCount) = [selfNode] from by decide]
      rw [show selfMod.connections = ([] : List Connection) from rfl]
      have hrec : evalRec (f + 1) [selfMod] [selfNode] [] = none := by
        show evaluateCircuit f [selfNode] [] [selfMod] = none
        exact ih
      rw [hrec]
      rfl

/-- Claim C7, counterexample to the claim as stated: on a module table in
which definition SELF instantiates itself, evaluating an instance of SELF
does not terminate — the fueled model returns `none` at every recursion
depth, so no depth suffices. -/
theorem self_module_no_termination :
    ¬ ∃ fuel, (evaluateCircuit fuel [selfNode] [] [selfMod]).isSome = true := by
  rintro ⟨fuel, h⟩
  rw [selfmod_eval_none fuel] at h
  simp at h

/-- Membership in a module clone preserves the node's type and module
reference (only INPUT held values are overridden). -/
theorem moduleInternal_mem (md : ModuleDefinition) (iv : List Bool)
    (n2 : CircuitNode) (h : n2 ∈ moduleInternal md iv) :
    ∃ n0 ∈ md.nodes, n2.type = n0.type ∧ n2.moduleId = n0.moduleId := by
  unfold moduleInternal at h
  rcases List.mem_map.mp h with ⟨n0, hn0, heq⟩
  refine ⟨n0, hn0, ?_⟩
  subst heq
  by_cases h1 : n0.type = GateType.INPUT
  · simp only [if_pos h1]
    rcases hI : md.inputNodeIds.findIdx? (fun x => decide (x = n0.id)) with _ | idx
    · simp [hI]
    · simp only [hI]
      by_cases h3 : idx < iv.length
      · simp [if_pos h3]
      · simp [if_neg h3]
  · simp [if_neg h1]

/-- Totality of the per-node output computation, given that every module
recursion it can trigger returns. -/
theorem evalGate_isSome
    (recurse : List CircuitNode → List Connection → Option Outputs)
    (ms : List ModuleDefinition) (node : CircuitNode) (iv : List Bool)
    (hmod : node.type = GateType.MODULE →
      ∀ md, ms.find? (fun m => decide (some m.id = node.moduleId)) = some md →
        (recurse (moduleInternal md iv) md.connections).isSome = true) :
    (evalGate recurse ms node iv).isSome = true := by
  unfold evalGate
  cases htype : node.type with
  | MODULE =>
      cases hmd : ms.find? (fun m => decide (some m.id = node.moduleId)) with
      | none => simp
      | some md =>
          rw [Option.isSome_map']
          exact hmod htype md hmd
  | PINBAR =>
      by_cases hb : node.pinBarMode.getD "input" = "input" <;> simp [hb]
  | AND => simp
  | OR => simp
  | NOT => simp
  | INPUT => simp
  | OUTPUT => simp
  | LED => simp
  | PINSLOT => simp

/-- Totality of the evaluation loop, given returning module recursions for
every node of the list. -/
theorem evalLoop_isSome
    (recurse : List CircuitNode → List Connection → Option Outputs)
    (ms : List ModuleDefinition) (nodes : List CircuitNode)
    (cs : List Connection)
    (hmod : ∀ n ∈ nodes, n.type = GateType.MODULE →
      ∀ md, ms.find? (fun m => decide (some m.id = n.moduleId)) = some md →
        ∀ iv : List Bool,
          (recurse (moduleInternal md iv) md.connections).isSome = true) :
    ∀ (order : List String) (st : Outputs),
      (evalLoop recurse ms nodes cs order st).isSome = true := by
  intro order
  induction order with
  | nil => intro st; simp [evalLoop]
  | cons nid rest ih =>
      intro st
      simp only [evalLoop]
      cases hstep : evalNodeAux recurse ms cs nodes st nid with
      | none =>
          exfalso
          unfold evalNodeAux at hstep
          cases hf : nodes.find? (fun n => decide (n.id = nid)) with
          | none => rw [hf] at hstep; simp at hstep
          | some node =>
              rw [hf] at hstep
              have hg : (evalGate recurse ms node
                  (gatherInputs st cs nid node.inputCount)).isSome = true :=
                evalGate_isSome recurse ms node _
                  (fun ht md hmd => hmod node (List.mem_of_find?_eq_some hf) ht md hmd _)
              simp only [Option.map_eq_none'] at hstep
              rw [hstep] at hg
              simp at hg
      | some st1 => exact ih st1

/-- A member of a list of naturals is bounded by their foldr maximum. -/
theorem le_foldr_max (l : List Nat) (x : Nat) (hx : x ∈ l) :
    x ≤ l.foldr max 0 := by
  induction l with
  | nil => simp at hx
  | cons y rest ih =>
      rcases List.mem_cons.mp hx with h | h
      · subst h
        exact Nat.le_max_left _ _
      · exact Nat.le_trans (ih h) (Nat.le_max_right _ _)

/-- Sufficient fuel for the evaluator on a module table admitting a rank
function that decreases along module references: any fuel strictly above
the rank of every definition referenced by the scope's MODULE nodes
suffices. -/
theorem evaluateCircuit_isSome_of_bound (modules : List ModuleDefinition)
    (rank : String → Nat)
    (hrank : ∀ md ∈ modules, ∀ n ∈ md.nodes, n.type = GateType.MODULE →
      ∀ md2 ∈ modules, some md2.id = n.moduleId → rank md2.id < rank md.id) :
    ∀ (K : Nat) (nodes : List CircuitNode) (conns : List Connection),
      (∀ n ∈ nodes, n.type = GateType.MODULE →
        ∀ md ∈ modules, some md.id = n.moduleId → rank md.id < K) →
      (evaluateCircuit K nodes conns modules).isSome = true := by
  intro K
  induction K with
  | zero =>
      intro nodes conns hb
      rw [evaluateCircuit_eq]
      apply evalLoop_isSome
      intro n hn htype md hmd iv
      exfalso
      have hmem := List.mem_of_find?_eq_some hmd
      have hpred := List.find?_some hmd
      rw [decide_eq_true_eq] at hpred
      have := hb n hn htype md hmem hpred
      omega
  | succ f ih =>
      intro nodes conns hb
      rw [evaluateCircuit_eq]
      apply evalLoop_isSome
      intro n hn htype md hmd iv
      have hmem := List.mem_of_find?_eq_some hmd
      have hpred := List.find?_some hmd
      rw [decide_eq_true_eq] at hpred
      show (evaluateCircuit f (moduleInternal md iv) md.connections
        modules).isSome = true
      apply ih
      intro n2 hn2 htype2 md2 hmem2 hpred2
      rcases moduleInternal_mem md iv n2 hn2 with ⟨n0, hn0, htyeq, hmodeq⟩
      have hlt : rank md2.id < rank md.id :=
        hrank md hmem n0 hn0 (htyeq ▸ htype2) md2 hmem2 (hmodeq ▸ hpred2)
      have hK : rank md.id < f + 1 := hb n hn htype md hmem hpred
      omega

/-- Claim C7 (amended): the evaluator terminates on every node list,
connection list and module table whose module-reference relation admits a
decreasing rank (equivalently, no definition instantiates itself directly
or transitively); on a self-instantiating table the recursion of an
instance never returns. -/
theorem evaluateCircuit_terminates_of_ranked_modules
    (modules : List ModuleDefinition) (rank : String → Nat)
    (hrank : ∀ md ∈ modules, ∀ n ∈ md.nodes, n.type = GateType.MODULE →
      ∀ md2 ∈ modules, some md2.id = n.moduleId → rank md2.id < rank md.id)
    (nodes : List CircuitNode) (conns : List Connection) :
    ∃ fuel, (evaluateCircuit fuel nodes conns modules).isSome = true := by
  refine ⟨(modules.map fun md => rank md.id).foldr max 0 + 1, ?_⟩
  apply evaluateCircuit_isSome_of_bound modules rank hrank
  intro n _ _ md hmd _
  have : rank md.id ≤ (modules.map fun md => rank md.id).foldr max 0 :=
    le_foldr_max _ _ (List.mem_map.mpr ⟨md, hmd, rfl⟩)
  omega

/-- Witness for the amended C7 theorem: with an empty module table the rank
condition is vacuous and evaluation terminates. -/
theorem evaluateCircuit_terminates_of_ranked_modules_witness :
    ∃ fuel, (evaluateCircuit fuel [inpNodeI] [] []).isSome = true :=
  evaluateCircuit_terminates_of_ranked_modules [] (fun _ => 0) (by simp)
    [inpNodeI] []

/-! Breadth-first-search lemmas for the pre-commit cycle check. -/

theorem reach_closed (conns : List Connection) (visited : List String)
    (hclosed : ∀ v ∈ visited, ∀ y, connStep conns v y → y ∈ visited)
    (x z : String) (hx : x ∈ visited)
    (h : Relation.ReflTransGen (connStep conns) x z) : z ∈ visited := by
  induction h with
  | refl => exact hx
  | tail _ h2 ih => exact hclosed _ ih _ h2

theorem bfsReach_sound (conns : List Connection) (target toNodeId : String) :
    ∀ (fuel : Nat) (visited queue : List String),
      (∀ q ∈ queue, Relation.ReflTransGen (connStep conns) toNodeId q) →
      bfsReach conns target fuel visited queue = true →
      Relation.ReflTransGen (connStep conns) toNodeId target := by
  intro fuel
  induction fuel with
  | zero =>
      intro visited queue _ h
      simp [bfsReach] at h
  | succ f ih =>
      intro visited queue hq h
      match queue with
      | [] => simp [bfsReach] at h
      | cur :: rest =>
          simp only [bfsReach] at h
          by_cases h1 : cur = target
          · exact h1 ▸ hq cur (List.mem_cons_self _ _)
          · rw [if_neg h1] at h
            by_cases h2 : cur ∈ visited
            · rw [if_pos h2] at h
              exact ih visited rest
                (fun q hqm => hq q (List.mem_cons_of_mem _ hqm)) h
            · rw [if_neg h2] at h
              apply ih _ _ _ h
              intro q hqm
              rcases List.mem_append.mp hqm with h3 | h3
              · exact hq q (List.mem_cons_of_mem _ h3)
              · rcases List.mem_map.mp h3 with ⟨c, hc, hcq⟩
                have hcm := List.mem_filter.mp hc
                refine Relation.ReflTransGen.tail
                  (hq cur (List.mem_cons_self _ _)) ?_
                exact ⟨c, hcm.1, by simpa using hcm.2, hcq⟩

theorem unexp_split (conns : List Connection) (visited : List String)
    (cur : String) (hcur : ¬ cur ∈ visited) :
    (conns.filter fun c => decide (¬ c.fromNodeId ∈ cur :: visited)).length +
      (conns.filter fun c => decide (c.fromNodeId = cur)).length =
      (conns.filter fun c => decide (¬ c.fromNodeId ∈ visited)).length := by
  induction conns with
  | nil => simp
  | cons c rest ih =>
      rw [List.filter_cons, List.filter_cons, List.filter_cons]
      by_cases h1 : c.fromNodeId = cur
      · have ha : decide (¬ c.fromNodeId ∈ cur :: visited) = false := by simp [h1]
        have hb : decide (c.fromNodeId = cur) = true := by simp [h1]
        have hc : decide (¬ c.fromNodeId ∈ visited) = true := by simp [h1, hcur]
        rw [ha, hb, hc, if_neg Bool.false_ne_true, if_pos rfl, if_pos rfl]
        simp only [List.length_cons]
        omega
      · by_cases h2 : c.fromNodeId ∈ visited
        · have ha : decide (¬ c.fromNodeId ∈ cur :: visited) = false := by simp [h2]
          have hb : decide (c.fromNodeId = cur) = false := by simp [h1]
          have hc : decide (¬ c.fromNodeId ∈ visited) = false := by simp [h2]
          rw [ha, hb, hc, if_neg Bool.false_ne_true, if_neg Bool.false_ne_true,
            if_neg Bool.false_ne_true]
          omega
        · have ha : decide (¬ c.fromNodeId ∈ cur :: visited) = true := by
            simp [h1, h2]
          have hb : decide (c.fromNodeId = cur) = false := by simp [h1]
          have hc : decide (¬ c.fromNodeId ∈ visited) = true := by simp [h2]
          rw [ha, hb, hc, if_pos rfl, if_neg Bool.false_ne_true, if_pos rfl]
          simp only [List.length_cons]
          omega

theorem bfsReach_complete (conns : List Connection) (target toNodeId : String) :
    ∀ (fuel : Nat) (visited queue : List String),
      queue.length +
        (conns.filter fun c => decide (¬ c.fromNodeId ∈ visited)).length ≤ fuel →
      (∀ v ∈ visited, ∀ y, connStep conns v y → y ∈ visited ∨ y ∈ queue) →
      (toNodeId ∈ visited ∨ toNodeId ∈ queue) →
      ¬ target ∈ visited →
      bfsReach conns target fuel visited queue = false →
      ¬ Relation.ReflTransGen (connStep conns) toNodeId target := by
  intro fuel
  induction fuel with
  | zero =>
      intro visited queue hfuel hclosed hto htarget _
      have hq : queue = [] := by
        have : queue.length = 0 := by omega
        exact List.length_eq_zero.mp this
      subst hq
      intro hreach
      have hto2 : toNodeId ∈ visited := by
        rcases hto with h | h
        · exact h
        · simp at h
      have hcl2 : ∀ v ∈ visited, ∀ y, connStep conns v y → y ∈ visited := by
        intro v hv y hy
        rcases hclosed v hv y hy with h | h
        · exact h
        · simp at h
      exact htarget (reach_closed conns visited hcl2 toNodeId target hto2 hreach)
  | succ f ih =>
      intro visited queue hfuel hclosed hto htarget hfalse
      match queue with
      | [] =>
          intro hreach
          have hto2 : toNodeId ∈ visited := by
            rcases hto with h | h
            · exact h
            · simp at h
          have hcl2 : ∀ v ∈ visited, ∀ y, connStep conns v y → y ∈ visited := by
            intro v hv y hy
            rcases hclosed v hv y hy with h | h
            · exact h
            · simp at h
          exact htarget (reach_closed conns visited hcl2 toNodeId target hto2 hreach)
      | cur :: rest =>
          simp only [bfsReach] at hfalse
          by_cases h1 : cur = target
          · rw [if_pos h1] at hfalse
            simp at hfalse
          · rw [if_neg h1] at hfalse
            by_cases h2 : cur ∈ visited
            · rw [if_pos h2] at hfalse
              apply ih visited rest _ _ _ htarget hfalse
              · simp only [List.length_cons] at hfuel
                omega
              · intro v hv y hy
                rcases hclosed v hv y hy with h | h
                · exact Or.inl h
                · rcases List.mem_cons.mp h with h3 | h3
                  · exact Or.inl (h3 ▸ h2)
                  · exact Or.inr h3
              · rcases hto with h | h
                · exact Or.inl h
                · rcases List.mem_cons.mp h with h3 | h3
                  · exact Or.inl (h3 ▸ h2)
                  · exact Or.inr h3
            · rw [if_neg h2] at hfalse
              apply ih (cur :: visited)
                (rest ++ (conns.filter fun c =>
                  decide (c.fromNodeId = cur)).map (·.toNodeId)) _ _ _ _ hfalse
              · have hsplit := unexp_split conns visited cur h2
                simp only [List.length_cons] at hfuel
                simp only [List.length_append, List.length_map]
                omega
              · intro v hv y hy
                rcases List.mem_cons.mp hv with h3 | h3
                · subst h3
                  rcases hy with ⟨c, hc, hcf, hct⟩
                  right
                  apply List.mem_append_right
                  exact List.mem_map.mpr
                    ⟨c, List.mem_filter.mpr ⟨hc, by simpa using hcf⟩, hct⟩
                · rcases hclosed v h3 y hy with h4 | h4
                  · exact Or.inl (List.mem_cons_of_mem _ h4)
                  · rcases List.mem_cons.mp h4 with h5 | h5
                    · exact Or.inl (h5 ▸ List.mem_cons_self _ _)
                    · exact Or.inr (List.mem_append_left _ h5)
              · rcases hto with h | h
                · exact Or.inl (List.mem_cons_of_mem _ h)
                · rcases List.mem_cons.mp h with h3 | h3
                  · exact Or.inl (h3 ▸ List.mem_cons_self _ _)
                  · exact Or.inr (List.mem_append_left _ h3)
              · intro hmem
                rcases List.mem_cons.mp hmem with h3 | h3
                · exact h1 h3.symm
                · exact htarget h3

/-- Claim C4: the pre-commit check answers `true` exactly when the
candidate edge is a self-loop or its source node is reachable from its
destination node by following existing connections forward. -/
theorem wouldCreateCycle_iff_self_or_reachable (conns : List Connection)
    (fromNodeId toNodeId : String) :
    wouldCreateCycle conns fromNodeId toNodeId = true ↔
      (fromNodeId = toNodeId ∨
        Relation.ReflTransGen (connStep conns) toNodeId fromNodeId) := by
  unfold wouldCreateCycle
  by_cases hself : fromNodeId = toNodeId
  · simp [hself]
  · rw [if_neg hself]
    constructor
    · intro h
      refine Or.inr (bfsReach_sound conns fromNodeId toNodeId _ [] [toNodeId] ?_ h)
      intro q hq
      rcases List.mem_cons.mp hq with h1 | h1
      · exact h1 ▸ Relation.ReflTransGen.refl
      · simp at h1
    · intro h
      rcases h with h | h
      · exact absurd h hself
      · by_contra hfalse
        rw [Bool.not_eq_true] at hfalse
        refine absurd h (bfsReach_complete conns fromNodeId toNodeId
          (conns.length + 1) [] [toNodeId] ?_ ?_ ?_ ?_ hfalse)
        · have hfeq : (conns.filter fun c =>
              decide (¬ c.fromNodeId ∈ ([] : List String))) = conns := by
            simp
          rw [hfeq]
          simp only [List.length_cons, List.length_nil]
          omega
        · intro v hv
          simp at hv
        · exact Or.inr (List.mem_cons_self _ _)
        · simp

/-! Module-instance refinement (C5). -/

theorem findIdx?_lt_length_from {β : Type} (p : β → Bool) :
    ∀ (l : List β) (s i : Nat), List.findIdx? p l s = some i →
      i < s + l.length := by
  intro l
  induction l with
  | nil => intro s i h; simp [List.findIdx?] at h
  | cons x rest ih =>
      intro s i h
      rw [List.findIdx?_cons] at h
      by_cases hx : p x
      · rw [if_pos hx] at h
        have hsi : s = i := Option.some.inj h
        rw [← hsi]
        simp only [List.length_cons]
        omega
      · rw [if_neg hx] at h
        have := ih (s + 1) i h
        simp only [List.length_cons]
        omega

theorem findIdx?_lt_length {β : Type} (p : β → Bool) (l : List β) (i : Nat)
    (h : List.findIdx? p l = some i) : i < l.length := by
  have := findIdx?_lt_length_from p l 0 i h
  omega

/-- Claim C5: the per-node step `evaluateCircuit` applies to a MODULE
instance whose definition exists, whose declared pin counts match the
definition's, and whose definition's declared input count agrees with its
designated external-input list (the well-formedness `createModule`
guarantees), computes exactly the spec-side standalone evaluation
`moduleSpecEval` of the definition on the instance's gathered input
vector. -/
theorem module_step_refines_spec (fuel : Nat) (ms : List ModuleDefinition)
    (cs : List Connection) (nodes : List CircuitNode) (st : Outputs)
    (nid : String) (node : CircuitNode) (md : ModuleDefinition)
    (hfind : nodes.find? (fun n => decide (n.id = nid)) = some node)
    (htype : node.type = GateType.MODULE)
    (hmd : ms.find? (fun m => decide (some m.id = node.moduleId)) = some md)
    (hin : node.inputCount = md.inputCount)
    (_hout : node.outputCount = md.outputCount)
    (hwf : md.inputCount = md.inputNodeIds.length) :
    evalNodeAux (fun ns2 cs2 => evaluateCircuit fuel ns2 cs2 ms) ms cs nodes
        st nid =
      (moduleSpecEval fuel md ms (gatherInputs st cs nid node.inputCount)).map
        (fun vec => setk st nid vec) := by
  have hlen : (gatherInputs st cs nid node.inputCount).length =
      md.inputNodeIds.length := by
    rw [gatherInputs_length, hin, hwf]
  have hinternal : moduleInternal md (gatherInputs st cs nid node.inputCount) =
      md.nodes.map (fun n =>
        if n.type = GateType.INPUT then
          match md.inputNodeIds.findIdx? (fun x => decide (x = n.id)) with
          | some idx =>
              { n with inputValue := some ((gatherInputs st cs nid node.inputCount).getD idx false) }
          | none => n
        else n) := by
    unfold moduleInternal
    apply List.map_congr_left
    intro n _
    by_cases h1 : n.type = GateType.INPUT
    · rw [if_pos h1, if_pos h1]
      cases h2 : md.inputNodeIds.findIdx? (fun x => decide (x = n.id)) with
      | none => rfl
      | some idx =>
          have hidx : idx < md.inputNodeIds.length :=
            findIdx?_lt_length _ _ _ h2
          have hlt : idx < (gatherInputs st cs nid node.inputCount).length := by
            rw [hlen]
            exact hidx
          simp [hlt]
    · rw [if_neg h1, if_neg h1]
  simp only [evalNodeAux, hfind, evalGate, htype, hmd]
  unfold moduleSpecEval
  rw [hinternal]
  rfl

/-- Witness for C5 at a concrete AND-gate module instance. -/
theorem module_step_refines_spec_witness :
    evalNodeAux (fun ns2 cs2 => evaluateCircuit 0 ns2 cs2 [andModule])
        [andModule] [] [andInstance] [] "inst" =
      (moduleSpecEval 0 andModule [andModule]
        (gatherInputs [] [] "inst" andInstance.inputCount)).map
        (fun vec => setk [] "inst" vec) :=
  module_step_refines_spec 0 [andModule] [] [andInstance] [] "inst"
    andInstance andModule (by decide) (by decide) (by decide) (by decide)
    (by decide) (by decide)
